import Mathlib

/-!
Verification of the audio-fingerprinting system (spectral peak extraction,
combinatorial landmark hashing, SQLite-backed index and matcher).

The development shallowly embeds the Python sources:
- `audio-fingerprinting-core.py`: `RobustAudioFingerprinter.find_peaks`,
  `generate_hashes`, `preprocess_audio`, `fingerprint_audio`, and the
  batch driver `parallel_fingerprint`;
- `audio-fingerprinting-database.py`: `AudioFingerprintDatabase`
  (`insert_fingerprints`, `match_fingerprint`).

Modelling conventions:
- Spectral magnitudes are embedded as rationals (the Python code only
  compares, maxes and sorts magnitudes; no float arithmetic is performed
  on them by the code under verification).
- The external librosa numeric kernels (`librosa.util.normalize`,
  `librosa.effects.trim`, `librosa.stft` plus `amplitude_to_db`) are
  out-of-repo collaborators and are modelled as an explicit record of
  functions (`AudioKernels`) threaded through the pipeline.
- A spectrogram is embedded as the list of its time-frame columns
  (`find_peaks` iterates over `spectrogram[:, t]`), each column being the
  list of per-frequency-bin magnitudes.
- `hashlib.sha256` is embedded as a full executable SHA-256 over byte
  lists (natural numbers below 256), validated below against the standard
  test vectors.
- The SQLite fingerprint table is embedded as a list of rows in rowid
  (insertion) order; `INSERT OR IGNORE` with the declared primary key is
  an insert guarded by key presence. The un-ordered
  `SELECT ... WHERE hash_value = ?` is served from the covering
  autoindex on the composite primary key
  (hash_value, track_id, time_offset), so the hits for one hash come
  back in (track_id, time_offset)-ascending order (BINARY collation,
  i.e. byte order of the text, modelled as the lexicographic order on
  the character list).
- Python `dict` is embedded as an association list with insertion-order
  semantics; `list.sort` / `sorted` are embedded as the stable
  `List.mergeSort`.
- Python float division `total / max(1, unique)` of nonnegative integers
  is embedded as exact rational division.
-/

namespace AudioFP

/-- Reduction modulo 2^32: all SHA-256 word arithmetic is 32-bit. -/
def w32 (n : Nat) : Nat := n % 4294967296

/-- Rotate a 32-bit word right by `n` positions (the shifted-out low
bits wrap to the top, truncated back to 32 bits). -/
def rotr (n x : Nat) : Nat := (x >>> n) ||| w32 (x <<< (32 - n))

/-- Round constant table of SHA-256 (FIPS 180-4), written in decimal. -/
def shaK : List Nat :=
  [1116352408, 1899447441, 3049323471, 3921009573, 961987163,
   1508970993, 2453635748, 2870763221, 3624381080, 310598401,
   607225278, 1426881987, 1925078388, 2162078206, 2614888103,
   3248222580, 3835390401, 4022224774, 264347078, 604807628,
   770255983, 1249150122, 1555081692, 1996064986, 2554220882,
   2821834349, 2952996808, 3210313671, 3336571891, 3584528711,
   113926993, 338241895, 666307205, 773529912, 1294757372,
   1396182291, 1695183700, 1986661051, 2177026350, 2456956037,
   2730485921, 2820302411, 3259730800, 3345764771, 3516065817,
   3600352804, 4094571909, 275423344, 430227734, 506948616,
   659060556, 883997877, 958139571, 1322822218, 1537002063,
   1747873779, 1955562222, 2024104815, 2227730452, 2361852424,
   2428436474, 2756734187, 3204031479, 3329325298]

/-- SHA-256 working state: eight 32-bit words. -/
structure ShaState where
  a : Nat
  b : Nat
  c : Nat
  d : Nat
  e : Nat
  f : Nat
  g : Nat
  h : Nat
deriving DecidableEq, Repr

/-- Initial hash state of SHA-256 (FIPS 180-4), written in decimal. -/
def shaH0 : ShaState :=
  ⟨1779033703, 3144134277, 1013904242, 2773480762,
   1359893119, 2600822924, 528734635, 1541459225⟩

/-- Extension step of the SHA-256 message schedule: append the next word
`fuel` times to the current word list. -/
def extendW : Nat → List Nat → List Nat
  | 0, ws => ws
  | n + 1, ws =>
    let k := ws.length
    let w15 := ws.getD (k - 15) 0
    let w2 := ws.getD (k - 2) 0
    let s0 := rotr 7 w15 ^^^ rotr 18 w15 ^^^ (w15 >>> 3)
    let s1 := rotr 17 w2 ^^^ rotr 19 w2 ^^^ (w2 >>> 10)
    extendW n (ws ++ [w32 (ws.getD (k - 16) 0 + s0 + ws.getD (k - 7) 0 + s1)])

/-- One SHA-256 compression round; `kw` is the sum of the round constant
and the schedule word. -/
def compressRound (s : ShaState) (kw : Nat) : ShaState :=
  let bigS1 := rotr 6 s.e ^^^ rotr 11 s.e ^^^ rotr 25 s.e
  let ch := (s.e &&& s.f) ^^^ ((s.e ^^^ 4294967295) &&& s.g)
  let temp1 := w32 (s.h + bigS1 + ch + kw)
  let bigS0 := rotr 2 s.a ^^^ rotr 13 s.a ^^^ rotr 22 s.a
  let maj := (s.a &&& s.b) ^^^ (s.a &&& s.c) ^^^ (s.b &&& s.c)
  let temp2 := w32 (bigS0 + maj)
  ⟨w32 (temp1 + temp2), s.a, s.b, s.c, w32 (s.d + temp1), s.e, s.f, s.g⟩

/-- Process one 512-bit block, given as sixteen 32-bit words. -/
def processBlock (s : ShaState) (block : List Nat) : ShaState :=
  let ws := extendW 48 block
  let t := (shaK.zip ws).foldl (fun st p => compressRound st (w32 (p.1 + p.2))) s
  ⟨w32 (s.a + t.a), w32 (s.b + t.b), w32 (s.c + t.c), w32 (s.d + t.d),
   w32 (s.e + t.e), w32 (s.f + t.f), w32 (s.g + t.g), w32 (s.h + t.h)⟩

/-- Big-endian byte encoding of a natural number in `k` bytes. -/
def beBytes : Nat → Nat → List Nat
  | 0, _ => []
  | k + 1, n => beBytes k (n / 256) ++ [n % 256]

/-- Group a byte list into big-endian 32-bit words (four bytes each). -/
def bytesToWords : List Nat → List Nat
  | b0 :: b1 :: b2 :: b3 :: rest =>
    (((b0 * 256 + b1) * 256 + b2) * 256 + b3) :: bytesToWords rest
  | _ => []

/-- SHA-256 padding: append the 0x80 byte, zero bytes up to 56 mod 64,
then the bit length as eight big-endian bytes. -/
def shaPad (msg : List Nat) : List Nat :=
  let z := (64 + 56 - (msg.length + 1) % 64) % 64
  msg ++ 128 :: List.replicate z 0 ++ beBytes 8 (8 * msg.length)

/-- Process `fuel` 64-byte blocks from the front of the padded message. -/
def processBlocks : Nat → ShaState → List Nat → ShaState
  | 0, s, _ => s
  | n + 1, s, bytes =>
    processBlocks n (processBlock s (bytesToWords (bytes.take 64))) (bytes.drop 64)

/-- SHA-256 digest of a byte list, as a 256-bit natural number (the
big-endian concatenation of the eight final state words). -/
def sha256Bytes (msg : List Nat) : Nat :=
  let padded := shaPad msg
  let s := processBlocks (padded.length / 64) shaH0 padded
  [s.a, s.b, s.c, s.d, s.e, s.f, s.g, s.h].foldl (fun acc wd => acc * 4294967296 + wd) 0

/-- Validation of the SHA-256 embedding on the standard "abc" test
vector (the digest value, written in decimal). -/
theorem sha256_test_abc :
    sha256Bytes [97, 98, 99] =
      84342368487090800366523834928142263660104883695016514377462985829716817089965 := by
  decide

/-- Validation of the SHA-256 embedding on the empty-message test
vector (the digest value, written in decimal). -/
theorem sha256_test_empty :
    sha256Bytes [] =
      102987336249554097029535212322581322789799900648198034993379397001115665086549 := by
  decide

/-- Decimal ASCII digits of a natural number, with an explicit fuel
argument (the fuel is always sufficient when it exceeds the number of
digits). -/
def decBytesCore : Nat → Nat → List Nat
  | 0, _ => []
  | fuel + 1, n => if n < 10 then [48 + n] else decBytesCore fuel (n / 10) ++ [48 + n % 10]

/-- Decimal ASCII byte encoding of a natural number, as produced by
Python string formatting of a nonnegative int. -/
def decBytes (n : Nat) : List Nat := decBytesCore (n + 1) n

/-- Decimal ASCII byte encoding of an integer, as produced by Python
string formatting of an int (a leading 0x2d minus sign when negative). -/
def intBytes : Int → List Nat
  | Int.ofNat n => decBytes n
  | Int.negSucc m => 45 :: decBytes (m + 1)

/-- Byte encoding of the Python f-string hash input
freq1 vertical-bar freq2 vertical-bar time_diff (0x7c is the bar). -/
def hashInputBytes (f1 f2 : Nat) (td : Int) : List Nat :=
  decBytes f1 ++ 124 :: decBytes f2 ++ 124 :: intBytes td

/-- Hash value of a landmark pair: SHA-256 of the encoded triple,
reduced modulo 2^32 (the source's int(...hexdigest(), 16) % 2**32). -/
def fingerprintHash (f1 f2 : Nat) (td : Int) : Nat :=
  sha256Bytes (hashInputBytes f1 f2 td) % 4294967296

/-- Peak as produced by find_peaks: (time frame index, frequency bin
index, magnitude in dB). -/
abbrev Peak := Nat × Nat × ℚ

/-- Fingerprint record, mirroring the AudioFingerprint dataclass. -/
structure AudioFingerprint where
  hash_value : Nat
  track_id : Option String
  time_offset : Nat
  frequency_pair : Nat × Nat
deriving DecidableEq, Repr

/-- Time delta hashed for an (anchor, target) landmark pair:
target time frame minus anchor time frame, as a Python int. -/
def timeDelta (anchor target : Peak) : Int := (target.1 : Int) - (anchor.1 : Int)

/-- Fingerprint built from one (anchor, target) landmark pair, mirroring
the body of the inner loop of generate_hashes. -/
def mkFingerprint (anchor target : Peak) : AudioFingerprint :=
  { hash_value := fingerprintHash anchor.2.1 target.2.1 (timeDelta anchor target)
    track_id := none
    time_offset := anchor.1
    frequency_pair := (anchor.2.1, target.2.1) }

/-- Embedding of RobustAudioFingerprinter.generate_hashes: each anchor at
index i is paired with the targets at indices i+1 up to (exclusive)
min (i + fan_out + 1) peaks.length. -/
def generate_hashes (peaks : List Peak) (fan_out : Nat) : List AudioFingerprint :=
  (List.range peaks.length).flatMap fun i =>
    (List.range' (i + 1) (min (i + fan_out + 1) peaks.length - (i + 1))).map fun j =>
      mkFingerprint (peaks.getD i default) (peaks.getD j default)

/-- Neighborhood slice frame[max(0, f-5) : min(len(frame), f+6)] of the
source's peak test (Nat subtraction already clips the lower bound). -/
def nbhdSlice (frame : List ℚ) (f : Nat) : List ℚ :=
  ((frame.drop (f - 5)).take (min frame.length (f + 6) - (f - 5)))

/-- Peak test of find_peaks: the bin's magnitude equals the maximum of
its clipped neighborhood (the source tests frame[f] != max(neighborhood)
and only then clears the flag, so the maximum is non-strict). -/
def isPeakBin (frame : List ℚ) (f : Nat) : Bool :=
  match (nbhdSlice frame f).max? with
  | none => true
  | some m => frame.getD f 0 == m

/-- Candidate local peaks of one time-frame column, in frequency order:
bins passing the neighborhood-maximum test with magnitude above -40 dB. -/
def localPeaksFrame (frame : List ℚ) : List (Nat × ℚ) :=
  (List.range frame.length).filterMap fun f =>
    if isPeakBin frame f ∧ frame.getD f 0 > -40 then some (f, frame.getD f 0) else none

/-- Stable descending order by the second component, the relation used
by Python's stable sorts with key = magnitude/confidence and
reverse=True: x may precede y exactly when y's key does not exceed x's. -/
def descSnd {α : Type} (x y : α × ℚ) : Prop := y.2 ≤ x.2

instance {α : Type} : DecidableRel (@descSnd α) := fun x y => inferInstanceAs (Decidable (y.2 ≤ x.2))

instance {α : Type} : IsTotal (α × ℚ) descSnd :=
  ⟨fun x y => (le_total x.2 y.2).symm⟩

instance {α : Type} : IsTrans (α × ℚ) descSnd :=
  ⟨fun _ _ _ h h' => le_trans h' h⟩

/-- Per-frame peak selection of find_peaks: stable sort by magnitude
descending (Python list.sort with reverse=True), truncated to max_peaks. -/
def topPeaksFrame (frame : List ℚ) (max_peaks : Nat) : List (Nat × ℚ) :=
  ((localPeaksFrame frame).insertionSort descSnd).take max_peaks

/-- Embedding of RobustAudioFingerprinter.find_peaks over the spectrogram
given as its list of time-frame columns (the source iterates t over
spectrogram[:, t]). -/
def find_peaks (spectrogram : List (List ℚ)) (max_peaks : Nat) : List Peak :=
  spectrogram.enum.flatMap fun tf =>
    (topPeaksFrame tf.2 max_peaks).map fun fm => (tf.1, fm.1, fm.2)

/-- External librosa numeric kernels used by the pipeline
(librosa.util.normalize, librosa.effects.trim, and the composition of
librosa.stft with amplitude_to_db producing the spectrogram's time-frame
columns). They are out-of-repo collaborators, so the pipeline is
parametrized over them. -/
structure AudioKernels where
  normalize : List ℚ → List ℚ
  trim : List ℚ → List ℚ
  stft_db : List ℚ → List (List ℚ)

/-- Embedding of RobustAudioFingerprinter.preprocess_audio: raises
ValueError on an empty buffer, otherwise normalizes then trims. -/
def preprocess_audio (k : AudioKernels) (audio : List ℚ) : Except String (List ℚ) :=
  if audio.length = 0 then Except.error "Empty audio input"
  else Except.ok (k.trim (k.normalize audio))

/-- Embedding of RobustAudioFingerprinter.generate_spectrogram. -/
def generate_spectrogram (k : AudioKernels) (audio : List ℚ) : List (List ℚ) :=
  k.stft_db audio

/-- Embedding of RobustAudioFingerprinter.fingerprint_audio with the
default configuration (max_peaks = 100, fan_out = 5): the stage
composition runs inside a catch-all handler that logs the failure and
returns the empty list. -/
def fingerprint_audio (k : AudioKernels) (audio : List ℚ) (track_id : Option String) :
    List AudioFingerprint :=
  match preprocess_audio k audio with
  | Except.error _ => []
  | Except.ok processed =>
    (generate_hashes (find_peaks (generate_spectrogram k processed) 100) 5).map
      fun fp => { fp with track_id := track_id }

/-- Embedding of the per-file worker of parallel_fingerprint: a batch
input is its resolved track_id (the source derives it from the filename
stem) together with the outcome of the external librosa.load call; a
load failure is caught, logged, and mapped to None. -/
def process_file (k : AudioKernels) (inp : String × Except String (List ℚ)) :
    Option (String × List AudioFingerprint) :=
  match inp.2 with
  | Except.error _ => none
  | Except.ok audio => some (inp.1, fingerprint_audio k audio (some inp.1))

/-- Insertion into a Python dict modelled as an association list: an
existing key keeps its position and its value is updated, a fresh key is
appended. -/
def dictInsert {β : Type} (d : List (String × β)) (key : String) (v : β) :
    List (String × β) :=
  if d.any fun p => p.1 == key then
    d.map fun p => if p.1 == key then (key, v) else p
  else d ++ [(key, v)]

/-- Lookup in a Python dict modelled as an association list. -/
def dictLookup {β : Type} (d : List (String × β)) (key : String) : Option β :=
  (d.find? fun p => p.1 == key).map fun p => p.2

/-- Embedding of parallel_fingerprint: map the worker over the batch,
drop the None results, and collect the rest into a dict (the dict
comprehension of the source). -/
def parallel_fingerprint (k : AudioKernels)
    (inputs : List (String × Except String (List ℚ))) :
    List (String × List AudioFingerprint) :=
  (inputs.filterMap (process_file k)).foldl (fun d r => dictInsert d r.1 r.2) []

/-- Row of the SQLite fingerprints table. -/
structure FPRow where
  hash_value : Nat
  track_id : String
  time_offset : Nat
  freq1 : Nat
  freq2 : Nat
deriving DecidableEq, Repr

/-- Primary key declared on the fingerprints table. -/
def rowKey (r : FPRow) : Nat × String × Nat := (r.hash_value, r.track_id, r.time_offset)

/-- Row inserted for one fingerprint of one track (the source binds the
dict key as track_id, not the fingerprint's own field). -/
def mkRow (tid : String) (fp : AudioFingerprint) : FPRow :=
  ⟨fp.hash_value, tid, fp.time_offset, fp.frequency_pair.1, fp.frequency_pair.2⟩

/-- INSERT OR IGNORE against the declared primary key: the row is
appended in rowid order unless a row with the same key is present. -/
def insertRow (db : List FPRow) (r : FPRow) : List FPRow :=
  if db.any fun x => rowKey x == rowKey r then db else db ++ [r]

/-- Embedding of AudioFingerprintDatabase.insert_fingerprints over the
fingerprints table, modelled as the list of rows in rowid order. -/
def insert_fingerprints (db : List FPRow)
    (fingerprints_dict : List (String × List AudioFingerprint)) : List FPRow :=
  fingerprints_dict.foldl
    (fun d p => p.2.foldl (fun d' fp => insertRow d' (mkRow p.1 fp)) d) db

/-- Order in which the covering autoindex on the composite primary key
yields the hits for one hash value: ascending (track_id, time_offset),
with track_id text compared in byte (code point) order. -/
def hitLE (p q : String × Nat) : Prop :=
  p.1.data < q.1.data ∨ (p.1 = q.1 ∧ p.2 ≤ q.2)

instance : DecidableRel hitLE := fun p q =>
  inferInstanceAs (Decidable (p.1.data < q.1.data ∨ (p.1 = q.1 ∧ p.2 ≤ q.2)))

/-- SELECT track_id, time_offset FROM fingerprints WHERE hash_value = h:
SQLite serves this un-ordered query from the composite-primary-key
covering autoindex, so the hits come back in (track_id, time_offset)-
ascending order, not rowid order. -/
def lookupHash (db : List FPRow) (h : Nat) : List (String × Nat) :=
  (db.filterMap fun r =>
    if r.hash_value == h then some (r.track_id, r.time_offset) else none).insertionSort
    hitLE

/-- Recording one alignment delta into the per-track dict of observed
delta lists (dict entry created on first hit, appended to afterwards). -/
def addMatch (tm : List (String × List Nat)) (tid : String) (d : Nat) :
    List (String × List Nat) :=
  if tm.any fun p => p.1 == tid then
    tm.map fun p => if p.1 == tid then (p.1, p.2 ++ [d]) else p
  else tm ++ [(tid, [d])]

/-- Scan phase of match_fingerprint: for every query fingerprint and
every index hit, record abs(query time_offset - db time_offset) into the
per-track delta dict, in scan order. -/
def collect_matches (db : List FPRow) (qfps : List AudioFingerprint) :
    List (String × List Nat) :=
  qfps.foldl
    (fun tm fp =>
      (lookupHash db fp.hash_value).foldl
        (fun tm' p => addMatch tm' p.1 (((fp.time_offset : Int) - (p.2 : Int)).natAbs))
        tm)
    []

/-- Confidence score total_matches / max(1, unique_matches): Python
divides these nonnegative ints with float division; it is embedded as
the exact rational quotient, built with mkRat so that it evaluates. -/
def confidence (total uniq : Nat) : ℚ := mkRat total (max 1 uniq)

/-- Scoring phase of match_fingerprint: confidence for each candidate
track, kept when total reaches the threshold, in dict order. -/
def match_results (db : List FPRow) (qfps : List AudioFingerprint) (threshold : Nat) :
    List (String × ℚ) :=
  (collect_matches db qfps).filterMap fun p =>
    if threshold ≤ p.2.length then some (p.1, confidence p.2.length p.2.dedup.length)
    else none

/-- Embedding of AudioFingerprintDatabase.match_fingerprint: the scored
candidates, stably sorted by confidence descending (Python sorted with
reverse=True). -/
def match_fingerprint (db : List FPRow) (qfps : List AudioFingerprint)
    (threshold : Nat) : List (String × ℚ) :=
  (match_results db qfps threshold).insertionSort descSnd

/-! Supporting definitions for the theorems. -/

/-- Trivial kernel record used for concrete counterexamples and
witnesses: identity normalization and trimming, empty spectrogram. -/
def trivialKernels : AudioKernels := ⟨id, id, fun _ => []⟩

/-- Kernel record whose spectrogram has two frames, each equal to the
sample buffer; used for concrete counterexamples and witnesses. -/
def echoKernels : AudioKernels := ⟨id, id, fun a => [a, a]⟩

instance {ε α : Type} [DecidableEq ε] [DecidableEq α] : DecidableEq (Except ε α) := fun a b =>
  match a, b with
  | Except.error e, Except.error f =>
    decidable_of_iff (e = f) ⟨fun h => h ▸ rfl, fun h => by injection h⟩
  | Except.error _, Except.ok _ => isFalse Except.noConfusion
  | Except.ok _, Except.error _ => isFalse Except.noConfusion
  | Except.ok x, Except.ok y =>
    decidable_of_iff (x = y) ⟨fun h => h ▸ rfl, fun h => by injection h⟩

/-- Presence of a primary key among the rows of the fingerprints table. -/
def keyPresent (db : List FPRow) (kk : Nat × String × Nat) : Bool :=
  db.any fun x => rowKey x == kk

/-- All rows generated by one insert_fingerprints call, in execution
order. -/
def allRows (fingerprints_dict : List (String × List AudioFingerprint)) : List FPRow :=
  fingerprints_dict.flatMap fun p => p.2.map (mkRow p.1)

theorem confidence_eq_div (total uniq : Nat) :
    confidence total uniq = (total : ℚ) / ((max 1 uniq : ℕ) : ℚ) := by
  rw [confidence, Rat.mkRat_eq_div]
  norm_num

theorem insertRow_of_present {db : List FPRow} {r : FPRow}
    (h : keyPresent db (rowKey r) = true) : insertRow db r = db := by
  simp only [insertRow, keyPresent] at *
  rw [if_pos h]

theorem keyPresent_insertRow_self (db : List FPRow) (r : FPRow) :
    keyPresent (insertRow db r) (rowKey r) = true := by
  by_cases h : keyPresent db (rowKey r) = true
  · rw [insertRow_of_present h]; exact h
  · simp only [insertRow, keyPresent] at *
    rw [if_neg h]
    simp [List.any_append]

theorem keyPresent_insertRow_mono {db : List FPRow} {kk : Nat × String × Nat}
    (r : FPRow) (h : keyPresent db kk = true) :
    keyPresent (insertRow db r) kk = true := by
  simp only [insertRow, keyPresent] at *
  split
  · exact h
  · simp [List.any_append, h]

theorem keyPresent_foldl_mono {kk : Nat × String × Nat} :
    ∀ (rs : List FPRow) (db : List FPRow), keyPresent db kk = true →
      keyPresent (rs.foldl insertRow db) kk = true
  | [], _, h => h
  | r :: rs, db, h =>
    keyPresent_foldl_mono rs (insertRow db r) (keyPresent_insertRow_mono r h)

theorem keyPresent_foldl_of_mem :
    ∀ (rs : List FPRow) (db : List FPRow) (r : FPRow), r ∈ rs →
      keyPresent (rs.foldl insertRow db) (rowKey r) = true := by
  intro rs
  induction rs with
  | nil => intro _ _ h; cases h
  | cons a rs ih =>
    intro db r hr
    rcases List.mem_cons.mp hr with h | h
    · subst h
      exact keyPresent_foldl_mono rs (insertRow db r) (keyPresent_insertRow_self db r)
    · exact ih (insertRow db a) r h

theorem foldl_insertRow_of_all_present :
    ∀ (rs : List FPRow) (db : List FPRow),
      (∀ r ∈ rs, keyPresent db (rowKey r) = true) → rs.foldl insertRow db = db := by
  intro rs
  induction rs with
  | nil => intro _ _; rfl
  | cons a rs ih =>
    intro db h
    have ha := insertRow_of_present (h a (List.mem_cons_self a rs))
    rw [List.foldl_cons, ha]
    exact ih db fun r hr => h r (List.mem_cons_of_mem a hr)

theorem insert_fingerprints_eq_foldl (db : List FPRow)
    (fingerprints_dict : List (String × List AudioFingerprint)) :
    insert_fingerprints db fingerprints_dict = (allRows fingerprints_dict).foldl insertRow db := by
  induction fingerprints_dict generalizing db with
  | nil => rfl
  | cons p dict ih =>
    simp only [insert_fingerprints, allRows, List.flatMap_cons, List.foldl_cons,
      List.foldl_append] at *
    rw [← List.foldl_map (mkRow p.1) insertRow]
    exact ih _

theorem mem_generate_hashes {peaks : List Peak} {fan_out : Nat} {fp : AudioFingerprint} :
    fp ∈ generate_hashes peaks fan_out ↔
      ∃ i j, i < peaks.length ∧ i < j ∧ j < min (i + fan_out + 1) peaks.length ∧
        fp = mkFingerprint (peaks.getD i default) (peaks.getD j default) := by
  simp only [generate_hashes, List.mem_flatMap, List.mem_map, List.mem_range, List.mem_range'_1]
  constructor
  · rintro ⟨i, hi, j, ⟨h1, h2⟩, rfl⟩
    refine ⟨i, j, hi, by omega, ?_, rfl⟩
    rcases min_choice (i + fan_out + 1) peaks.length with h | h <;> rw [h] at h2 ⊢ <;> omega
  · rintro ⟨i, j, hi, h1, h2, rfl⟩
    refine ⟨i, hi, j, ⟨by omega, ?_⟩, rfl⟩
    rcases min_choice (i + fan_out + 1) peaks.length with h | h <;> rw [h] at h2 ⊢ <;> omega

theorem generate_hashes_length (peaks : List Peak) (fan_out : Nat) :
    (generate_hashes peaks fan_out).length =
      ((List.range peaks.length).map fun i =>
        min (i + fan_out + 1) peaks.length - (i + 1)).sum := by
  simp only [generate_hashes, List.length_flatMap, List.map_map]
  simp [Function.comp_def]

/-- Elements produced by the per-frame peak lists carry their own frame
index, and frames are scanned in order, so peaks come out frame-major. -/
theorem find_peaks_enumFrom_facts (max_peaks : Nat) :
    ∀ (l : List (List ℚ)) (n : Nat),
      (((l.enumFrom n).flatMap fun tf =>
          (topPeaksFrame tf.2 max_peaks).map fun fm => (tf.1, fm.1, fm.2)).Pairwise
        fun p q => p.1 ≤ q.1) ∧
      ∀ p ∈ (l.enumFrom n).flatMap fun tf =>
          (topPeaksFrame tf.2 max_peaks).map fun fm => (tf.1, fm.1, fm.2), n ≤ p.1 := by
  intro l
  induction l with
  | nil => exact fun n => ⟨List.Pairwise.nil, by simp⟩
  | cons a l ih =>
    intro n
    obtain ⟨ihp, ihb⟩ := ih (n + 1)
    simp only [List.enumFrom_cons, List.flatMap_cons]
    constructor
    · rw [List.pairwise_append]
      refine ⟨?_, ihp, ?_⟩
      · rw [List.pairwise_map]
        exact List.pairwise_iff_getElem.mpr fun i j _ _ _ => le_refl n
      · intro x hx y hy
        rw [List.mem_map] at hx
        obtain ⟨fm, -, rfl⟩ := hx
        exact le_trans (Nat.le_succ n) (ihb y hy)
    · intro p hp
      rcases List.mem_append.mp hp with h | h
      · rw [List.mem_map] at h
        obtain ⟨fm, -, rfl⟩ := h
        exact le_refl n
      · exact le_trans (Nat.le_succ n) (ihb p h)

theorem find_peaks_time_le {spectrogram : List (List ℚ)} {max_peaks : Nat} :
    (find_peaks spectrogram max_peaks).Pairwise fun p q => p.1 ≤ q.1 := by
  have := (find_peaks_enumFrom_facts max_peaks spectrogram 0).1
  simpa [find_peaks, List.enum] using this

/-- C4: generate_hashes pairs the anchor at index i with exactly the
targets at indices i+1 up to i+fan_out bounded by the sequence length;
each fingerprint's hash_value is the SHA-256 of the encoded
(freq1, freq2, time_delta) triple reduced modulo 2^32, a function of the
triple only; time_offset is the anchor's own time frame; fewer than two
peaks yield zero fingerprints. -/
theorem generate_hashes_spec (peaks : List Peak) (fan_out : Nat) :
    (∀ fp, fp ∈ generate_hashes peaks fan_out ↔
      ∃ i j, i < peaks.length ∧ i < j ∧ j < min (i + fan_out + 1) peaks.length ∧
        fp = mkFingerprint (peaks.getD i default) (peaks.getD j default)) ∧
    (∀ anchor target : Peak,
      (mkFingerprint anchor target).hash_value =
        sha256Bytes (hashInputBytes anchor.2.1 target.2.1 (timeDelta anchor target)) % 2 ^ 32 ∧
      (mkFingerprint anchor target).time_offset = anchor.1 ∧
      (mkFingerprint anchor target).track_id = none ∧
      (mkFingerprint anchor target).frequency_pair = (anchor.2.1, target.2.1)) ∧
    (∀ a a' t t' : Peak, a.2.1 = a'.2.1 → t.2.1 = t'.2.1 →
      timeDelta a t = timeDelta a' t' →
      (mkFingerprint a t).hash_value = (mkFingerprint a' t').hash_value) ∧
    ((generate_hashes peaks fan_out).length =
      ((List.range peaks.length).map fun i =>
        min (i + fan_out + 1) peaks.length - (i + 1)).sum) ∧
    (peaks.length < 2 → generate_hashes peaks fan_out = []) := by
  refine ⟨fun fp => mem_generate_hashes, fun anchor target => ⟨rfl, rfl, rfl, rfl⟩,
    ?_, generate_hashes_length peaks fan_out, fun h2 => ?_⟩
  · intro a a' t t' h1 h2 h3
    simp only [mkFingerprint, fingerprintHash, h1, h2, h3]
  · rw [List.eq_nil_iff_forall_not_mem]
    intro fp hfp
    obtain ⟨i, j, hi, hij, hj, -⟩ := mem_generate_hashes.mp hfp
    omega

/-- C4 witness: the claim theorem instantiated at a one-peak sequence
(no fingerprints) and at an equal-triple pair of distinct peak pairs. -/
theorem generate_hashes_spec_witness :
    (([((0 : Nat), (0 : Nat), (0 : ℚ))] : List Peak).length < 2 ∧
      generate_hashes [((0 : Nat), (0 : Nat), (0 : ℚ))] 5 = []) ∧
    ((mkFingerprint ((0 : Nat), (3 : Nat), (0 : ℚ)) ((2 : Nat), (7 : Nat), (0 : ℚ))).hash_value =
      (mkFingerprint ((5 : Nat), (3 : Nat), (1 : ℚ)) ((7 : Nat), (7 : Nat), (2 : ℚ))).hash_value) :=
  ⟨⟨by decide, (generate_hashes_spec [((0 : Nat), (0 : Nat), (0 : ℚ))] 5).2.2.2.2 (by decide)⟩,
    (generate_hashes_spec [] 5).2.2.1 ((0 : Nat), (3 : Nat), (0 : ℚ)) _ _ _
      (by decide) (by decide) (by decide)⟩

/-- C9: find_peaks emits peaks in non-decreasing time-frame order, so
every fingerprint generate_hashes produces from a find_peaks output
comes from an anchor-target pair whose hashed time delta is
non-negative. -/
theorem find_peaks_deltas_nonneg (spectrogram : List (List ℚ)) (max_peaks fan_out : Nat) :
    ((find_peaks spectrogram max_peaks).Pairwise fun p q => p.1 ≤ q.1) ∧
    ∀ fp ∈ generate_hashes (find_peaks spectrogram max_peaks) fan_out,
      ∃ i j, i < j ∧ j < (find_peaks spectrogram max_peaks).length ∧ j ≤ i + fan_out ∧
        fp = mkFingerprint ((find_peaks spectrogram max_peaks).getD i default)
              ((find_peaks spectrogram max_peaks).getD j default) ∧
        0 ≤ timeDelta ((find_peaks spectrogram max_peaks).getD i default)
              ((find_peaks spectrogram max_peaks).getD j default) := by
  refine ⟨find_peaks_time_le, fun fp hfp => ?_⟩
  obtain ⟨i, j, hi, hij, hj, rfl⟩ := mem_generate_hashes.mp hfp
  have hjlen : j < (find_peaks spectrogram max_peaks).length := by omega
  have hile : ((find_peaks spectrogram max_peaks).getD i default).1 ≤
      ((find_peaks spectrogram max_peaks).getD j default).1 := by
    rw [List.getD_eq_getElem _ _ (by omega : i < (find_peaks spectrogram max_peaks).length),
      List.getD_eq_getElem _ _ hjlen]
    exact List.pairwise_iff_getElem.mp find_peaks_time_le i j (by omega) hjlen hij
  exact ⟨i, j, hij, hjlen, by omega, rfl, by simp only [timeDelta]; omega⟩

/-- C9 witness: the claim theorem applied to the single fingerprint of a
two-frame spectrogram. -/
theorem find_peaks_deltas_nonneg_witness :
    mkFingerprint ((0 : Nat), (0 : Nat), (0 : ℚ)) ((1 : Nat), (0 : Nat), (0 : ℚ)) ∈
        generate_hashes (find_peaks [[(0 : ℚ)], [(0 : ℚ)]] 100) 5 ∧
    ∃ i j, i < j ∧ j < (find_peaks [[(0 : ℚ)], [(0 : ℚ)]] 100).length ∧ j ≤ i + 5 ∧
      mkFingerprint ((0 : Nat), (0 : Nat), (0 : ℚ)) ((1 : Nat), (0 : Nat), (0 : ℚ)) =
        mkFingerprint ((find_peaks [[(0 : ℚ)], [(0 : ℚ)]] 100).getD i default)
          ((find_peaks [[(0 : ℚ)], [(0 : ℚ)]] 100).getD j default) ∧
      0 ≤ timeDelta ((find_peaks [[(0 : ℚ)], [(0 : ℚ)]] 100).getD i default)
            ((find_peaks [[(0 : ℚ)], [(0 : ℚ)]] 100).getD j default) :=
  ⟨by decide, (find_peaks_deltas_nonneg [[(0 : ℚ)], [(0 : ℚ)]] 100 5).2 _ (by decide)⟩

/-- The claim's strict-maximum candidate predicate, written from the
spec's words (strict maximum within the clipped ±5 window, above the
-40 dB floor); used to compare against the source's behavior. -/
def specStrictCandidate (frame : List ℚ) (f : Nat) : Prop :=
  f < frame.length ∧
  (∀ g, g < frame.length → f - 5 ≤ g → g < f + 6 → g ≠ f →
    frame.getD g 0 < frame.getD f 0) ∧
  frame.getD f 0 > -40

instance (frame : List ℚ) (f : Nat) : Decidable (specStrictCandidate frame f) := by
  unfold specStrictCandidate
  infer_instance

theorem nbhdSlice_length (frame : List ℚ) (f : Nat) :
    (nbhdSlice frame f).length = min frame.length (f + 6) - (f - 5) := by
  simp only [nbhdSlice, List.length_take, List.length_drop]
  omega

theorem mem_nbhdSlice_iff {frame : List ℚ} {f : Nat} {x : ℚ} :
    x ∈ nbhdSlice frame f ↔
      ∃ g, f - 5 ≤ g ∧ g < min frame.length (f + 6) ∧ frame.getD g 0 = x := by
  rw [List.mem_iff_getElem]
  constructor
  · rintro ⟨i, hi, rfl⟩
    have hi' := hi
    rw [nbhdSlice_length] at hi'
    refine ⟨f - 5 + i, by omega, by omega, ?_⟩
    rw [List.getD_eq_getElem _ _ (by omega : f - 5 + i < frame.length)]
    simp [nbhdSlice, List.getElem_take, List.getElem_drop]
  · rintro ⟨g, hg1, hg2, rfl⟩
    refine ⟨g - (f - 5), by rw [nbhdSlice_length]; omega, ?_⟩
    rw [List.getD_eq_getElem _ _ (by omega : g < frame.length)]
    simp only [nbhdSlice, List.getElem_take, List.getElem_drop]
    congr 1
    omega

theorem isPeakBin_iff {frame : List ℚ} {f : Nat} (hf : f < frame.length) :
    isPeakBin frame f = true ↔ ∀ x ∈ nbhdSlice frame f, x ≤ frame.getD f 0 := by
  haveI : Std.Antisymm ((· : ℚ) ≤ ·) := ⟨fun h h' => le_antisymm h h'⟩
  have hself : frame.getD f 0 ∈ nbhdSlice frame f :=
    mem_nbhdSlice_iff.mpr ⟨f, by omega, by omega, rfl⟩
  have hne : nbhdSlice frame f ≠ [] := by
    intro h
    rw [h] at hself
    cases hself
  obtain ⟨m, hm⟩ := Option.ne_none_iff_exists'.mp
    (mt List.max?_eq_none_iff.mp hne)
  have hmax := (List.max?_eq_some_iff (fun a : ℚ => le_refl a)
    (fun a b => max_choice a b) (fun a b c => max_le_iff)).mp hm
  rw [isPeakBin, hm]
  constructor
  · intro h x hx
    have : frame.getD f 0 = m := by simpa using h
    rw [this]
    exact hmax.2 x hx
  · intro h
    have h1 : m ≤ frame.getD f 0 := h m hmax.1
    have h2 : frame.getD f 0 ≤ m := hmax.2 _ hself
    exact beq_iff_eq.mpr (le_antisymm h2 h1)

theorem mem_localPeaksFrame {frame : List ℚ} {f : Nat} {v : ℚ} :
    (f, v) ∈ localPeaksFrame frame ↔
      f < frame.length ∧ v = frame.getD f 0 ∧ isPeakBin frame f = true ∧
        frame.getD f 0 > -40 := by
  simp only [localPeaksFrame, List.mem_filterMap, List.mem_range]
  constructor
  · rintro ⟨g, hg, h⟩
    split at h
    · rename_i hc
      injection h with h'
      rw [Prod.mk.injEq] at h'
      obtain ⟨rfl, rfl⟩ := h'
      exact ⟨hg, rfl, hc.1, hc.2⟩
    · cases h
  · rintro ⟨hf, rfl, hp, hm⟩
    exact ⟨f, hf, by rw [if_pos ⟨hp, hm⟩]⟩

/-- Stable descending-by-magnitude sort of the frame candidates. -/
theorem topPeaksFrame_take (frame : List ℚ) (max_peaks : Nat) :
    topPeaksFrame frame max_peaks =
      ((localPeaksFrame frame).insertionSort descSnd).take max_peaks := rfl

theorem filter_flatMap_eq {α β : Type} (p : β → Bool) (g : α → List β) :
    ∀ l : List α, (l.flatMap g).filter p = l.flatMap fun a => (g a).filter p := by
  intro l
  induction l with
  | nil => rfl
  | cons a l ih => simp [List.flatMap_cons, List.filter_append, ih]

theorem filter_time_enumFrom (max_peaks : Nat) :
    ∀ (l : List (List ℚ)) (n t : Nat), n ≤ t → t - n < l.length →
      (((l.enumFrom n).flatMap fun tf =>
          (topPeaksFrame tf.2 max_peaks).map fun fm => (tf.1, fm.1, fm.2)).filter
        fun p => p.1 == t) =
        (topPeaksFrame (l.getD (t - n) []) max_peaks).map fun fm => (t, fm.1, fm.2) := by
  intro l
  induction l with
  | nil => intro n t _ ht; simp at ht
  | cons a l ih =>
    intro n t hn ht
    simp only [List.length_cons] at ht
    simp only [List.enumFrom_cons, List.flatMap_cons, List.filter_append]
    rcases Nat.eq_or_lt_of_le hn with h | h
    · subst h
      have hgroup : (((topPeaksFrame a max_peaks).map fun fm => (n, fm.1, fm.2)).filter
          fun p => p.1 == n) = (topPeaksFrame a max_peaks).map fun fm => (n, fm.1, fm.2) := by
        rw [List.filter_map]
        have : ((fun p => p.1 == n) ∘ fun fm : Nat × ℚ => (n, fm.1, fm.2)) =
            fun _ => true := by
          funext fm
          simp
        rw [this, List.filter_true]
      have hrest : (((l.enumFrom (n + 1)).flatMap fun tf =>
          (topPeaksFrame tf.2 max_peaks).map fun fm => (tf.1, fm.1, fm.2)).filter
            fun p => p.1 == n) = [] := by
        rw [List.filter_eq_nil_iff]
        intro p hp
        have := (find_peaks_enumFrom_facts max_peaks l (n + 1)).2 p hp
        simp only [beq_iff_eq]
        omega
      rw [hgroup, hrest, Nat.sub_self]
      simp
    · have hgroup : (((topPeaksFrame a max_peaks).map fun fm => (n, fm.1, fm.2)).filter
          fun p => p.1 == t) = [] := by
        rw [List.filter_eq_nil_iff]
        intro p hp
        rw [List.mem_map] at hp
        obtain ⟨fm, -, rfl⟩ := hp
        simp only [beq_iff_eq]
        omega
      have hih := ih (n + 1) t (by omega) (by omega)
      rw [hgroup, hih]
      have : (a :: l).getD (t - n) [] = l.getD (t - (n + 1)) [] := by
        have h1 : t - n = (t - (n + 1)) + 1 := by omega
        rw [h1, List.getD_cons_succ]
      rw [List.nil_append, this]

/-- Stream of (track_id, alignment delta) pairs produced by the scan
phase of match_fingerprint, in scan order. -/
def matchEvents (db : List FPRow) (qfps : List AudioFingerprint) : List (String × Nat) :=
  qfps.flatMap fun fp =>
    (lookupHash db fp.hash_value).map fun p =>
      (p.1, ((fp.time_offset : Int) - (p.2 : Int)).natAbs)

/-- Deltas recorded for one track from an event stream. -/
def eventsFor (events : List (String × Nat)) (tid : String) : List Nat :=
  events.filterMap fun e => if e.1 = tid then some e.2 else none

/-- Alignment deltas a given track accumulates over a query: one entry
per index hit of a query fingerprint's hash on that track, recording
abs(query time_offset - db time_offset), in scan order. -/
def trackDeltas (db : List FPRow) (qfps : List AudioFingerprint) (tid : String) : List Nat :=
  qfps.flatMap fun fp =>
    (lookupHash db fp.hash_value).filterMap fun p =>
      if p.1 = tid then some (((fp.time_offset : Int) - (p.2 : Int)).natAbs) else none

theorem foldl_flatMap {α β γ : Type} (g : α → List β) (step : γ → β → γ) :
    ∀ (l : List α) (init : γ),
      (l.flatMap g).foldl step init = l.foldl (fun acc a => (g a).foldl step acc) init := by
  intro l
  induction l with
  | nil => intro init; rfl
  | cons a l ih => intro init; simp [List.flatMap_cons, List.foldl_append, ih]

theorem filterMap_flatMap {α β γ : Type} (g : α → List β) (h : β → Option γ) :
    ∀ l : List α, (l.flatMap g).filterMap h = l.flatMap fun a => (g a).filterMap h := by
  intro l
  induction l with
  | nil => rfl
  | cons a l ih => simp [List.flatMap_cons, List.filterMap_append, ih]

theorem collect_matches_eq_foldl (db : List FPRow) (qfps : List AudioFingerprint) :
    collect_matches db qfps =
      (matchEvents db qfps).foldl (fun tm e => addMatch tm e.1 e.2) [] := by
  rw [collect_matches, matchEvents, foldl_flatMap]
  simp only [List.foldl_map]

theorem eventsFor_matchEvents (db : List FPRow) (qfps : List AudioFingerprint)
    (tid : String) : eventsFor (matchEvents db qfps) tid = trackDeltas db qfps tid := by
  rw [eventsFor, matchEvents, filterMap_flatMap, trackDeltas]
  simp only [List.filterMap_map, Function.comp_def]

theorem dictLookup_cons {β : Type} (p : String × β) (tm : List (String × β)) (tid : String) :
    dictLookup (p :: tm) tid = if p.1 == tid then some p.2 else dictLookup tm tid := by
  rw [dictLookup, List.find?_cons]
  cases h : (p.1 == tid) <;> simp [h, dictLookup]

theorem dictLookup_map_update (tm : List (String × List Nat)) (tid : String) (d : Nat)
    (tid' : String) (hne : tid' ≠ tid) :
    dictLookup (tm.map fun p => if p.1 == tid then (p.1, p.2 ++ [d]) else p) tid' =
      dictLookup tm tid' := by
  induction tm with
  | nil => rfl
  | cons p tm ih =>
    have hkey : (if p.1 == tid then (p.1, p.2 ++ [d]) else p).1 = p.1 := by
      split <;> rfl
    rw [List.map_cons, dictLookup_cons, dictLookup_cons, hkey]
    by_cases hm : (p.1 == tid') = true
    · have hp : (p.1 == tid) = false := by
        have h1 : p.1 = tid' := by simpa using hm
        simp [h1, hne]
      rw [if_pos hm, if_pos hm, if_neg (by simp [hp])]
    · have hm' : (p.1 == tid') = false := by simpa using hm
      rw [if_neg (by simp [hm']), if_neg (by simp [hm']), ih]

theorem dictLookup_map_update_self (tm : List (String × List Nat)) (tid : String) (d : Nat)
    (ha : (tm.any fun p => p.1 == tid) = true) :
    dictLookup (tm.map fun p => if p.1 == tid then (p.1, p.2 ++ [d]) else p) tid =
      some ((dictLookup tm tid).getD [] ++ [d]) := by
  induction tm with
  | nil => cases ha
  | cons p tm ih =>
    have hkey : (if p.1 == tid then (p.1, p.2 ++ [d]) else p).1 = p.1 := by
      split <;> rfl
    rw [List.map_cons, dictLookup_cons, dictLookup_cons, hkey]
    by_cases hp : (p.1 == tid) = true
    · simp only [if_pos hp]
      rfl
    · have hp' : (p.1 == tid) = false := by simpa using hp
      have ha' : (tm.any fun p => p.1 == tid) = true := by
        simpa [List.any_cons, hp'] using ha
      rw [if_neg (by simp [hp']), if_neg (by simp [hp']), ih ha']

theorem dictLookup_none_of_not_any {β : Type} (tm : List (String × β)) (tid : String)
    (ha : (tm.any fun p => p.1 == tid) = false) : dictLookup tm tid = none := by
  have hfind : (tm.find? fun p => p.1 == tid) = none := by
    rw [List.find?_eq_none]
    intro x hx
    intro hx'
    rw [List.any_eq_false] at ha
    exact absurd hx' (ha x hx)
  rw [dictLookup, hfind]
  rfl

theorem dictLookup_append_one {β : Type} (tm : List (String × β)) (tid tid' : String)
    (v : β) :
    dictLookup (tm ++ [(tid, v)]) tid' =
      match dictLookup tm tid' with
      | some w => some w
      | none => if tid == tid' then some v else none := by
  induction tm with
  | nil =>
    rw [List.nil_append, dictLookup_cons]
    cases h : (tid == tid') <;> simp [h, dictLookup]
  | cons p tm ih =>
    rw [List.cons_append, dictLookup_cons, dictLookup_cons]
    by_cases hp : (p.1 == tid') = true
    · rw [if_pos hp, if_pos hp]
    · rw [if_neg (by simp [hp]), if_neg (by simp [hp]), ih]

theorem dictLookup_addMatch_self (tm : List (String × List Nat)) (tid : String) (d : Nat) :
    dictLookup (addMatch tm tid d) tid = some ((dictLookup tm tid).getD [] ++ [d]) := by
  rw [addMatch]
  cases ha : (tm.any fun p => p.1 == tid) with
  | true => rw [if_pos rfl, dictLookup_map_update_self tm tid d ha]
  | false =>
    rw [if_neg (by simp), dictLookup_append_one,
      dictLookup_none_of_not_any tm tid ha]
    simp

theorem dictLookup_addMatch_other (tm : List (String × List Nat)) (tid tid' : String)
    (d : Nat) (hne : tid' ≠ tid) :
    dictLookup (addMatch tm tid d) tid' = dictLookup tm tid' := by
  rw [addMatch]
  cases ha : (tm.any fun p => p.1 == tid) with
  | true => rw [if_pos rfl, dictLookup_map_update tm tid d tid' hne]
  | false =>
    rw [if_neg (by simp), dictLookup_append_one]
    have h2 : (tid == tid') = false := beq_eq_false_iff_ne.mpr fun e => hne e.symm
    rw [h2]
    cases dictLookup tm tid' <;> rfl

theorem dictLookup_foldl_addMatch :
    ∀ (events : List (String × Nat)) (tm : List (String × List Nat)) (tid : String),
      dictLookup (events.foldl (fun tm e => addMatch tm e.1 e.2) tm) tid =
        match dictLookup tm tid with
        | some l => some (l ++ eventsFor events tid)
        | none =>
          if eventsFor events tid = [] then none else some (eventsFor events tid) := by
  intro events
  induction events with
  | nil =>
    intro tm tid
    simp only [List.foldl_nil, eventsFor, List.filterMap_nil]
    cases dictLookup tm tid <;> simp
  | cons e events ih =>
    intro tm tid
    rw [List.foldl_cons, ih]
    by_cases he : e.1 = tid
    · subst he
      rw [dictLookup_addMatch_self tm e.1 e.2]
      have hev : eventsFor (e :: events) e.1 = e.2 :: eventsFor events e.1 := by
        simp [eventsFor, List.filterMap_cons]
      rw [hev]
      cases dictLookup tm e.1 <;> simp
    · have hlk := dictLookup_addMatch_other tm e.1 tid e.2 fun h => he h.symm
      rw [hlk]
      have hev : eventsFor (e :: events) tid = eventsFor events tid := by
        simp [eventsFor, List.filterMap_cons, he]
      rw [hev]

theorem addMatch_keys_nodup {tm : List (String × List Nat)} (tid : String) (d : Nat)
    (h : (tm.map Prod.fst).Nodup) : ((addMatch tm tid d).map Prod.fst).Nodup := by
  rw [addMatch]
  cases ha : (tm.any fun p => p.1 == tid) with
  | true =>
    rw [if_pos rfl]
    have hkeys : (tm.map fun p => if p.1 == tid then (p.1, p.2 ++ [d]) else p).map Prod.fst =
        tm.map Prod.fst := by
      rw [List.map_map]
      refine List.map_congr_left fun p _ => ?_
      show (if p.1 == tid then (p.1, p.2 ++ [d]) else p).1 = p.1
      split <;> rfl
    rw [hkeys]
    exact h
  | false =>
    rw [if_neg (by simp), List.map_append]
    rw [List.nodup_append]
    refine ⟨h, List.nodup_singleton tid, ?_⟩
    intro x hx
    rw [List.mem_map] at hx
    obtain ⟨p, hp, rfl⟩ := hx
    have := List.any_eq_false.mp ha p hp
    simp only [List.map_cons, List.map_nil, List.mem_singleton]
    intro hcontra
    exact absurd (beq_iff_eq.mpr hcontra) (by simpa using this)

theorem foldl_addMatch_keys_nodup :
    ∀ (events : List (String × Nat)) (tm : List (String × List Nat)),
      (tm.map Prod.fst).Nodup →
      (((events.foldl (fun tm e => addMatch tm e.1 e.2) tm)).map Prod.fst).Nodup := by
  intro events
  induction events with
  | nil => intro tm h; exact h
  | cons e events ih =>
    intro tm h
    exact ih _ (addMatch_keys_nodup e.1 e.2 h)

theorem mem_iff_dictLookup {β : Type} :
    ∀ {tm : List (String × β)}, (tm.map Prod.fst).Nodup →
      ∀ {tid : String} {l : β}, ((tid, l) ∈ tm ↔ dictLookup tm tid = some l) := by
  intro tm
  induction tm with
  | nil => intro _ tid l; simp [dictLookup]
  | cons p tm ih =>
    intro hnd tid l
    rw [List.map_cons, List.nodup_cons] at hnd
    rw [List.mem_cons, dictLookup_cons]
    by_cases hp : (p.1 == tid) = true
    · have hp' : p.1 = tid := by simpa using hp
      rw [if_pos hp]
      constructor
      · rintro (rfl | hmem)
        · rfl
        · exfalso
          exact hnd.1 (hp' ▸ List.mem_map_of_mem Prod.fst hmem)
      · rintro h
        injection h with h
        left
        rw [← hp', ← h]
    · have hp' : p.1 ≠ tid := by simpa using hp
      rw [if_neg hp]
      rw [ih hnd.2]
      constructor
      · rintro (h | h)
        · exact absurd (congrArg Prod.fst h).symm hp'
        · exact h
      · exact fun h => Or.inr h

theorem collect_matches_keys_nodup (db : List FPRow) (qfps : List AudioFingerprint) :
    ((collect_matches db qfps).map Prod.fst).Nodup := by
  rw [collect_matches_eq_foldl]
  exact foldl_addMatch_keys_nodup _ [] (by simp)

theorem collect_matches_lookup (db : List FPRow) (qfps : List AudioFingerprint)
    (tid : String) :
    dictLookup (collect_matches db qfps) tid =
      if trackDeltas db qfps tid = [] then none else some (trackDeltas db qfps tid) := by
  rw [collect_matches_eq_foldl, dictLookup_foldl_addMatch, eventsFor_matchEvents]
  have h0 : dictLookup ([] : List (String × List Nat)) tid = none := rfl
  rw [h0]

theorem mem_collect_matches {db : List FPRow} {qfps : List AudioFingerprint}
    {tid : String} {l : List Nat} :
    (tid, l) ∈ collect_matches db qfps ↔
      l = trackDeltas db qfps tid ∧ trackDeltas db qfps tid ≠ [] := by
  rw [mem_iff_dictLookup (collect_matches_keys_nodup db qfps), collect_matches_lookup]
  by_cases h : trackDeltas db qfps tid = []
  · simp [h]
  · rw [if_neg h]
    constructor
    · intro he
      injection he with he
      exact ⟨he.symm, h⟩
    · rintro ⟨rfl, -⟩
      rfl

/-! Claim theorems. -/

/-- Concrete index state for matcher counterexamples and witnesses: two
tracks on two different hashes, track "z" on the hash the query scans
first and track "a" on the hash it scans second. -/
def tieDb : List FPRow := [⟨1, "z", 0, 0, 0⟩, ⟨2, "a", 0, 0, 0⟩]

/-- Concrete two-fingerprint query: its first fingerprint hits track "z"
(hash 1), its second hits track "a" (hash 2). -/
def tieQuery : List AudioFingerprint := [⟨1, none, 0, (0, 0)⟩, ⟨2, none, 0, (0, 0)⟩]

/-- C1 counterexample: two candidate tracks tied at confidence 1 whose
hashes differ, so per-hash index order is irrelevant; "z" is encountered
first in the query scan, the dict keeps that order, and the stable sort
returns "z" before "a" — the output is not ordered with ties broken by
track_id ascending. -/
theorem match_tie_order_counterexample :
    match_fingerprint tieDb tieQuery 1 = [("z", 1), ("a", 1)] ∧
    ¬ ((match_fingerprint tieDb tieQuery 1).Pairwise fun x y =>
        y.2 < x.2 ∨ (x.2 = y.2 ∧ x.1.data < y.1.data)) :=
  ⟨by decide, by decide⟩

/-- C1 amended: match_fingerprint returns exactly the tracks whose
alignment-delta list (one abs(query offset - db offset) entry per index
hit) is nonempty and reaches the threshold — a track with total_matches
equal to min_matches is included, with min_matches - 1 it is excluded —
each paired with confidence total_matches / max(1, unique_deltas), and
the output is sorted by confidence descending with ties kept in
first-encounter order (stable sort), not by track_id ascending. -/
theorem match_fingerprint_spec (db : List FPRow) (qfps : List AudioFingerprint)
    (threshold : Nat) :
    (∀ tid conf, (tid, conf) ∈ match_fingerprint db qfps threshold ↔
      (trackDeltas db qfps tid ≠ [] ∧ threshold ≤ (trackDeltas db qfps tid).length ∧
        conf = ((trackDeltas db qfps tid).length : ℚ) /
          ((max 1 (trackDeltas db qfps tid).dedup.length : ℕ) : ℚ))) ∧
    ((match_fingerprint db qfps threshold).Pairwise fun x y => y.2 ≤ x.2) ∧
    (∀ x y : String × ℚ, List.Sublist [x, y] (match_results db qfps threshold) → y.2 ≤ x.2 →
      List.Sublist [x, y] (match_fingerprint db qfps threshold)) := by
  refine ⟨fun tid conf => ?_, ?_, fun x y hsub hle => ?_⟩
  · rw [match_fingerprint,
      (List.perm_insertionSort descSnd (match_results db qfps threshold)).mem_iff]
    simp only [match_results, List.mem_filterMap]
    constructor
    · rintro ⟨⟨ptid, pl⟩, hp, hif⟩
      obtain ⟨hdel, hne⟩ := mem_collect_matches.mp hp
      split at hif
      · rename_i hthr
        injection hif with hif
        rw [Prod.mk.injEq] at hif
        obtain ⟨rfl, rfl⟩ := hif
        subst hdel
        exact ⟨hne, hthr, (confidence_eq_div _ _).symm ▸ rfl⟩
      · cases hif
    · rintro ⟨hne, hthr, rfl⟩
      refine ⟨(tid, trackDeltas db qfps tid), mem_collect_matches.mpr ⟨rfl, hne⟩, ?_⟩
      rw [if_pos hthr, confidence_eq_div]
  · exact (List.sorted_insertionSort descSnd _ : List.Pairwise descSnd _)
  · exact List.pair_sublist_insertionSort hle hsub

/-- C1 witness: the stability conjunct applied to the tied candidates of
the concrete index state. -/
theorem match_fingerprint_spec_witness :
    List.Sublist [(("z" : String), (1 : ℚ)), ("a", 1)] (match_results tieDb tieQuery 1) ∧
    ((("a" : String), (1 : ℚ)).2 ≤ (("z" : String), (1 : ℚ)).2) ∧
    List.Sublist [(("z" : String), (1 : ℚ)), ("a", 1)] (match_fingerprint tieDb tieQuery 1) := by
  have he : match_results tieDb tieQuery 1 = [(("z" : String), (1 : ℚ)), ("a", 1)] := by
    decide
  have h1 : List.Sublist [(("z" : String), (1 : ℚ)), ("a", 1)] (match_results tieDb tieQuery 1) :=
    he ▸ List.Sublist.refl _
  have h2 : ((("a" : String), (1 : ℚ)).2 ≤ (("z" : String), (1 : ℚ)).2) := by decide
  exact ⟨h1, h2, (match_fingerprint_spec tieDb tieQuery 1).2.2 _ _ h1 h2⟩

/-- Confidence of a nonempty delta list is at least one, since the
distinct-delta count is at least one and at most the total count. -/
theorem one_le_confidence {l : List Nat} (hne : l ≠ []) :
    1 ≤ confidence l.length l.dedup.length := by
  have h1 : 1 ≤ l.dedup.length :=
    List.length_pos.mpr (by simpa [List.dedup_eq_nil] using hne)
  have h2 : l.dedup.length ≤ l.length := (List.dedup_sublist l).length_le
  rw [confidence, Nat.max_eq_right h1, Rat.mkRat_eq_div]
  rw [one_le_div (by exact_mod_cast h1 : (0 : ℚ) < (l.dedup.length : ℚ))]
  exact_mod_cast h2

/-- C10: every (track_id, confidence) pair match_fingerprint returns has
confidence at least 1, because a reported track's delta list is nonempty
and its distinct-delta count is at most its total count. -/
theorem match_confidence_at_least_one (db : List FPRow) (qfps : List AudioFingerprint)
    (threshold : Nat) :
    ∀ p ∈ match_fingerprint db qfps threshold, 1 ≤ p.2 := by
  intro p hp
  rw [match_fingerprint] at hp
  have hp' : p ∈ match_results db qfps threshold :=
    (List.perm_insertionSort descSnd (match_results db qfps threshold)).mem_iff.mp hp
  obtain ⟨⟨ptid, pl⟩, hmem, hif⟩ := List.mem_filterMap.mp hp'
  obtain ⟨hdel, hne0⟩ := mem_collect_matches.mp hmem
  split at hif
  · injection hif with hif
    subst hif
    exact one_le_confidence (hdel ▸ hne0)
  · cases hif

/-- C10 witness: the claim theorem applied to a returned pair of the
concrete index state. -/
theorem match_confidence_at_least_one_witness :
    (("z", (1 : ℚ)) ∈ match_fingerprint tieDb tieQuery 1) ∧
    (1 : ℚ) ≤ (("z", (1 : ℚ)) : String × ℚ).2 :=
  ⟨by decide, match_confidence_at_least_one tieDb tieQuery 1 ("z", 1) (by decide)⟩

/-- C5: for every track set and fingerprint set, ingesting the same
fingerprints dictionary twice leaves the fingerprints table in the same
state as ingesting it once; a duplicate (hash_value, track_id,
time_offset) key is silently ignored. -/
theorem insert_fingerprints_idempotent (db : List FPRow)
    (fingerprints_dict : List (String × List AudioFingerprint)) :
    insert_fingerprints (insert_fingerprints db fingerprints_dict) fingerprints_dict =
      insert_fingerprints db fingerprints_dict := by
  rw [insert_fingerprints_eq_foldl, insert_fingerprints_eq_foldl db]
  exact foldl_insertRow_of_all_present _ _ fun r hr =>
    keyPresent_foldl_of_mem _ db r hr

/-- C3 counterexample: in the frame [0, 0] neither bin is a strict
maximum of its ±5 neighborhood (each ties with the other), yet
find_peaks emits both bins as landmarks — the source's test
frame[f] != max(neighborhood) accepts non-strict maxima. -/
theorem find_peaks_strict_counterexample :
    find_peaks [[(0 : ℚ), 0]] 100 = [(0, 0, (0 : ℚ)), (0, 1, 0)] ∧
    ¬ specStrictCandidate [(0 : ℚ), 0] 0 ∧ ¬ specStrictCandidate [(0 : ℚ), 0] 1 :=
  ⟨by decide, by decide, by decide⟩

/-- C3 amended: a bin is a candidate iff its magnitude is a non-strict
maximum of the clipped ±5 neighborhood (ties qualify) and exceeds
-40 dB; candidates are stably sorted by magnitude descending and
truncated to max_peaks_per_frame, so a frame with at least max_peaks
candidates yields exactly max_peaks landmarks, each of magnitude at
least that of every dropped candidate; the frame's landmarks within
find_peaks are exactly this per-frame selection. -/
theorem find_peaks_frame_spec (frame : List ℚ) (max_peaks : Nat) :
    (∀ f, f < frame.length →
      ((f, frame.getD f 0) ∈ localPeaksFrame frame ↔
        ((∀ g, g < frame.length → f - 5 ≤ g → g < f + 6 →
            frame.getD g 0 ≤ frame.getD f 0) ∧ frame.getD f 0 > -40))) ∧
    ((topPeaksFrame frame max_peaks).Pairwise fun p q => q.2 ≤ p.2) ∧
    (max_peaks ≤ (localPeaksFrame frame).length →
      (topPeaksFrame frame max_peaks).length = max_peaks) ∧
    (∀ p ∈ topPeaksFrame frame max_peaks, p ∈ localPeaksFrame frame) ∧
    (∀ p ∈ topPeaksFrame frame max_peaks, ∀ q ∈ localPeaksFrame frame,
      q ∉ topPeaksFrame frame max_peaks → q.2 ≤ p.2) ∧
    (∀ t (spectrogram : List (List ℚ)), t < spectrogram.length →
      spectrogram.getD t [] = frame →
      (find_peaks spectrogram max_peaks).filter (fun p => p.1 == t) =
        (topPeaksFrame frame max_peaks).map fun fm => (t, fm.1, fm.2)) := by
  refine ⟨?_, ?_, ?_, ?_, ?_, ?_⟩
  · intro f hf
    rw [mem_localPeaksFrame]
    constructor
    · rintro ⟨-, -, hp, hm⟩
      refine ⟨fun g hg hg1 hg2 => ?_, hm⟩
      exact (isPeakBin_iff hf).mp hp _ (mem_nbhdSlice_iff.mpr ⟨g, hg1, by omega, rfl⟩)
    · rintro ⟨hmax, hm⟩
      refine ⟨hf, rfl, (isPeakBin_iff hf).mpr ?_, hm⟩
      intro x hx
      obtain ⟨g, hg1, hg2, rfl⟩ := mem_nbhdSlice_iff.mp hx
      exact hmax g (by omega) hg1 (by omega)
  · exact ((List.sorted_insertionSort descSnd _).sublist
      (List.take_sublist _ _) : List.Pairwise descSnd _)
  · intro hcap
    rw [topPeaksFrame, List.length_take,
      (List.perm_insertionSort descSnd (localPeaksFrame frame)).length_eq]
    omega
  · intro p hp
    exact (List.perm_insertionSort descSnd _).mem_iff.mp (List.mem_of_mem_take hp)
  · intro p hp q hq hnot
    have hqs : q ∈ (localPeaksFrame frame).insertionSort descSnd :=
      (List.perm_insertionSort descSnd _).mem_iff.mpr hq
    have hsplit := List.take_append_drop max_peaks
      ((localPeaksFrame frame).insertionSort descSnd)
    have hsorted : List.Pairwise descSnd
        ((((localPeaksFrame frame).insertionSort descSnd).take max_peaks) ++
          (((localPeaksFrame frame).insertionSort descSnd).drop max_peaks)) := by
      rw [hsplit]
      exact List.sorted_insertionSort descSnd _
    have hqd : q ∈ ((localPeaksFrame frame).insertionSort descSnd).drop max_peaks := by
      rcases List.mem_append.mp (hsplit ▸ hqs) with h | h
      · exact absurd h hnot
      · exact h
    exact (List.pairwise_append.mp hsorted).2.2 p hp q hqd
  · intro t spectrogram ht hframe
    have := filter_time_enumFrom max_peaks spectrogram 0 t (Nat.zero_le t)
      (by simpa using ht)
    rw [find_peaks, List.enum]
    rw [Nat.sub_zero] at this
    rw [this, hframe]

/-- C3 witness: the amended theorem instantiated on a frame with two
qualifying candidates and a cap of one. -/
theorem find_peaks_frame_spec_witness :
    1 ≤ (localPeaksFrame [(10 : ℚ), 0, 0, 0, 0, 0, 0, 20]).length ∧
    (topPeaksFrame [(10 : ℚ), 0, 0, 0, 0, 0, 0, 20] 1).length = 1 :=
  ⟨by decide, (find_peaks_frame_spec [(10 : ℚ), 0, 0, 0, 0, 0, 0, 20] 1).2.2.1 (by decide)⟩

/-- C2 counterexample: on the empty sample buffer, preprocess_audio does
raise the empty-input ValueError, but fingerprint_audio catches it and
returns the empty list, i.e. the caller receives an empty-success value
instead of the error. -/
theorem empty_input_swallowed_counterexample :
    preprocess_audio trivialKernels [] = Except.error "Empty audio input" ∧
    fingerprint_audio trivialKernels [] none = [] := by
  exact ⟨rfl, rfl⟩

/-- C2 amended: a zero-length sample buffer makes preprocess_audio fail
fast with the empty-input error and no partial result, but
fingerprint_audio (single-item mode) catches the error and returns an
empty fingerprint list rather than propagating it. -/
theorem empty_input_error_swallowed (k : AudioKernels) (tid : Option String)
    (audio : List ℚ) (h : audio.length = 0) :
    preprocess_audio k audio = Except.error "Empty audio input" ∧
    fingerprint_audio k audio tid = [] := by
  have : preprocess_audio k audio = Except.error "Empty audio input" := by
    simp [preprocess_audio, h]
  exact ⟨this, by simp [fingerprint_audio, this]⟩

/-- C2 witness: the amended theorem instantiated on the empty buffer. -/
theorem empty_input_error_swallowed_witness :
    ([] : List ℚ).length = 0 ∧
    (preprocess_audio trivialKernels [] = Except.error "Empty audio input" ∧
     fingerprint_audio trivialKernels [] none = []) :=
  ⟨by decide, empty_input_error_swallowed trivialKernels none [] (by decide)⟩

/-- C8: for a fixed sample buffer, fixed configuration and fixed
external numeric kernels, the pipeline is a pure function: two runs
yield identical fingerprint sequences, and on nonempty input the result
is exactly the composition analyze (normalize, trim, spectrogram) then
extract peaks then hash landmarks, with the track id attached. -/
theorem fingerprint_audio_deterministic (k : AudioKernels) (audio : List ℚ)
    (tid : Option String) :
    fingerprint_audio k audio tid = fingerprint_audio k audio tid ∧
    (audio ≠ [] →
      fingerprint_audio k audio tid =
        (generate_hashes
            (find_peaks (generate_spectrogram k (k.trim (k.normalize audio))) 100) 5).map
          fun fp => { fp with track_id := tid }) := by
  refine ⟨rfl, fun h => ?_⟩
  have : audio.length ≠ 0 := by simpa using h
  simp [fingerprint_audio, preprocess_audio, this]

/-- C8 witness: the determinism theorem instantiated on a concrete
one-sample buffer. -/
theorem fingerprint_audio_deterministic_witness :
    ([1] : List ℚ) ≠ [] ∧
    fingerprint_audio trivialKernels [1] none =
      (generate_hashes
          (find_peaks
            (generate_spectrogram trivialKernels
              (trivialKernels.trim (trivialKernels.normalize [1]))) 100) 5).map
        (fun fp => { fp with track_id := none }) :=
  ⟨by decide, (fingerprint_audio_deterministic trivialKernels [1] none).2 (by decide)⟩

theorem dictLookup_none_of_key_not_mem {β : Type} {d : List (String × β)} {tid : String}
    (h : tid ∉ d.map Prod.fst) : dictLookup d tid = none := by
  rw [dictLookup, List.find?_eq_none.mpr, Option.map_none']
  intro x hx hbeq
  exact h (beq_iff_eq.mp hbeq ▸ List.mem_map_of_mem Prod.fst hx)

theorem dictInsert_fresh {β : Type} {d : List (String × β)} {key : String} (v : β)
    (h : (d.any fun p => p.1 == key) = false) : dictInsert d key v = d ++ [(key, v)] := by
  rw [dictInsert, if_neg (by simp [h])]

theorem foldl_dictInsert_fresh {β : Type} :
    ∀ (rs : List (String × β)) (d : List (String × β)),
      (((d ++ rs).map Prod.fst)).Nodup →
      rs.foldl (fun d r => dictInsert d r.1 r.2) d = d ++ rs := by
  intro rs
  induction rs with
  | nil => intro d _; simp
  | cons r rs ih =>
    intro d hnd
    have hfresh : (d.any fun p => p.1 == r.1) = false := by
      rw [List.any_eq_false]
      intro p hp
      rw [List.map_append, List.nodup_append] at hnd
      have hdis := hnd.2.2 (List.mem_map_of_mem Prod.fst hp)
      simp only [List.map_cons, List.mem_cons] at hdis
      by_contra hb
      exact hdis (Or.inl (beq_iff_eq.mp hb))
    rw [List.foldl_cons, dictInsert_fresh r.2 hfresh]
    have hnd' : (((d ++ [(r.1, r.2)]) ++ rs).map Prod.fst).Nodup := by
      have : (d ++ [(r.1, r.2)]) ++ rs = d ++ (r.1, r.2) :: rs := by simp
      rw [this]
      simpa using hnd
    rw [ih (d ++ [(r.1, r.2)]) hnd']
    simp

theorem process_file_keys {k : AudioKernels} :
    ∀ inputs : List (String × Except String (List ℚ)),
      List.Sublist ((inputs.filterMap (process_file k)).map Prod.fst)
        (inputs.map Prod.fst) := by
  intro inputs
  induction inputs with
  | nil => exact List.Sublist.refl _
  | cons a l ih =>
    rw [List.filterMap_cons]
    cases ha : a.2 with
    | error e =>
      have : process_file k a = none := by rw [process_file, ha]
      rw [this]
      exact (List.map_cons _ a _) ▸ ih.cons a.1
    | ok audio =>
      have : process_file k a = some (a.1, fingerprint_audio k audio (some a.1)) := by
        rw [process_file, ha]
      rw [this]
      exact ih.cons₂ a.1

theorem parallel_fingerprint_eq_filterMap (k : AudioKernels)
    (inputs : List (String × Except String (List ℚ)))
    (h : (inputs.map Prod.fst).Nodup) :
    parallel_fingerprint k inputs = inputs.filterMap (process_file k) := by
  rw [parallel_fingerprint]
  have hnd : (((([] : List (String × List AudioFingerprint)) ++
      inputs.filterMap (process_file k)).map Prod.fst)).Nodup := by
    rw [List.nil_append]
    exact (process_file_keys inputs).nodup h
  rw [foldl_dictInsert_fresh _ [] hnd, List.nil_append]

theorem parallel_fingerprint_lookup (k : AudioKernels)
    (inputs : List (String × Except String (List ℚ)))
    (h : (inputs.map Prod.fst).Nodup) (tid : String) :
    dictLookup (parallel_fingerprint k inputs) tid =
      (dictLookup inputs tid).bind fun x =>
        match x with
        | Except.error _ => none
        | Except.ok audio => some (fingerprint_audio k audio (some tid)) := by
  rw [parallel_fingerprint_eq_filterMap k inputs h]
  induction inputs with
  | nil => rfl
  | cons a l ih =>
    rw [List.map_cons, List.nodup_cons] at h
    rw [List.filterMap_cons, dictLookup_cons]
    cases ha : a.2 with
    | error e =>
      have hpf : process_file k a = none := by rw [process_file, ha]
      rw [hpf]
      by_cases hkey : (a.1 == tid) = true
      · have : tid ∉ (l.filterMap (process_file k)).map Prod.fst := by
          intro hmem
          exact h.1 (beq_iff_eq.mp hkey ▸ (process_file_keys l).subset hmem)
        rw [dictLookup_none_of_key_not_mem this, if_pos hkey]
        rfl
      · rw [if_neg hkey, ih h.2]
    | ok audio =>
      have hpf : process_file k a = some (a.1, fingerprint_audio k audio (some a.1)) := by
        rw [process_file, ha]
      rw [hpf, dictLookup_cons]
      by_cases hkey : (a.1 == tid) = true
      · have htid : a.1 = tid := beq_iff_eq.mp hkey
        rw [if_pos hkey, if_pos hkey, htid]
        rfl
      · rw [if_neg hkey, if_neg hkey, ih h.2]

/-- C6 counterexample: in a three-track batch whose middle input has an
empty sample buffer, the empty-buffer track is not omitted — it appears
in the result mapping bound to an empty fingerprint list, and the
returned mapping carries no per-item diagnostic for it. -/
theorem batch_empty_buffer_counterexample :
    parallel_fingerprint trivialKernels
        [("t1", Except.ok [1]), ("t2", Except.ok []), ("t3", Except.ok [1])] =
      [("t1", []), ("t2", []), ("t3", [])] ∧
    dictLookup
        (parallel_fingerprint trivialKernels
          [("t1", Except.ok [1]), ("t2", Except.ok []), ("t3", Except.ok [1])]) "t2" =
      some [] :=
  ⟨by decide, by decide⟩

/-- C6 amended: the batch driver is total (it never raises for the whole
batch) and one track's failure does not disturb the others; but a track
whose load fails is dropped from the mapping with its failure only
logged, never returned to the caller as a per-item diagnostic, and a
track whose buffer is empty is not omitted: its pipeline failure is
swallowed into an empty fingerprint list that appears in the mapping. -/
theorem parallel_fingerprint_isolation (k : AudioKernels)
    (inputs : List (String × Except String (List ℚ)))
    (h : (inputs.map Prod.fst).Nodup) :
    (∀ tid audio, (tid, Except.ok audio) ∈ inputs →
      dictLookup (parallel_fingerprint k inputs) tid =
        some (fingerprint_audio k audio (some tid))) ∧
    (∀ tid err, (tid, Except.error err) ∈ inputs →
      dictLookup (parallel_fingerprint k inputs) tid = none) ∧
    (∀ tid, fingerprint_audio k [] (some tid) = []) := by
  refine ⟨fun tid audio hmem => ?_, fun tid err hmem => ?_, fun tid => rfl⟩
  · rw [parallel_fingerprint_lookup k inputs h tid,
      (mem_iff_dictLookup h).mp hmem]
    rfl
  · rw [parallel_fingerprint_lookup k inputs h tid,
      (mem_iff_dictLookup h).mp hmem]
    rfl

/-- C6 witness: the amended theorem instantiated on a concrete batch
with one successful load and one failed load. -/
theorem parallel_fingerprint_isolation_witness :
    (([("t1", Except.ok [(1 : ℚ)]), ("t2", Except.error "decode failure")].map
        Prod.fst)).Nodup ∧
    dictLookup
        (parallel_fingerprint trivialKernels
          [("t1", Except.ok [(1 : ℚ)]), ("t2", Except.error "decode failure")]) "t1" =
      some (fingerprint_audio trivialKernels [(1 : ℚ)] (some "t1")) ∧
    dictLookup
        (parallel_fingerprint trivialKernels
          [("t1", Except.ok [(1 : ℚ)]), ("t2", Except.error "decode failure")]) "t2" =
      none :=
  ⟨by decide,
    (parallel_fingerprint_isolation trivialKernels
      [("t1", Except.ok [(1 : ℚ)]), ("t2", Except.error "decode failure")]
      (by decide)).1 "t1" [(1 : ℚ)] (by decide),
    (parallel_fingerprint_isolation trivialKernels
      [("t1", Except.ok [(1 : ℚ)]), ("t2", Except.error "decode failure")]
      (by decide)).2.1 "t2" "decode failure" (by decide)⟩

/-- C7 counterexample: two batch inputs resolving to the same track id
are merged silently, the later input's fingerprints overwriting the
earlier input's distinct fingerprints; no duplicate-track-id error is
reported. -/
theorem duplicate_track_id_counterexample :
    parallel_fingerprint echoKernels [("a", Except.ok [1, 2]), ("a", Except.ok [2, 1])] =
      [("a", fingerprint_audio echoKernels [2, 1] (some "a"))] ∧
    fingerprint_audio echoKernels [1, 2] (some "a") ≠
      fingerprint_audio echoKernels [2, 1] (some "a") := by
  constructor
  · rfl
  · decide

/-- C7 amended: when two scheduled batch inputs resolve to the same
track_id, the dict comprehension of parallel_fingerprint silently keeps
only the later input's result (last write wins); no error value is
reported to the caller. -/
theorem duplicate_track_id_last_wins (k : AudioKernels) (tid : String)
    (a1 a2 : List ℚ) :
    parallel_fingerprint k [(tid, Except.ok a1), (tid, Except.ok a2)] =
      [(tid, fingerprint_audio k a2 (some tid))] := by
  simp [parallel_fingerprint, process_file, dictInsert]

end AudioFP
